import Mathlib

/-!
Verification of the Markov-chain text generator
(`src/v1_Markovs_Chain_NLP.py`).

The Python program is embedded shallowly:

* Python dicts are insertion-ordered association lists (`Counts`,
  `Chain`); `chGet`/`countsGet` are dict lookup, `bumpCounts` is
  `d[k] = d.get(k, 0) + 1`, `addTransition` is the two-line insert of
  `build_ngram_chain`'s loop body.
* A chain key is either a bare token (the `n = 1` case of
  `tuple(words[i:i+n]) if n > 1 else words[i]`) or a tuple of tokens,
  mirrored by the inductive type `Key`.
* Randomness is an explicit tape of naturals: each call to
  `random.choice` / `random.choices` consumes the head of the tape and
  reduces it modulo the number of alternatives; `random.choices`'
  weighting is modelled by expanding each candidate to `count` copies,
  so exactly the positive-weight candidates can be drawn.
* Python exceptions are `Except String`; the error strings are the ones
  raised by the source.
* The `while len(output) < length` loop of `generate_text` runs at most
  `length` iterations (each iteration appends exactly one token, and the
  loop stops as soon as `len(output) >= length`), so it is embedded as
  structural recursion on a fuel argument initialised to `length`; the
  fuel can only run out at a point where the loop condition is false, so
  the fuel-0 branch returns the same value the `while` loop would.
-/

/-- A dict key of the chain: a bare word for `n = 1`, a tuple of words
for `n > 1` (`tuple(words[i:i+n]) if n > 1 else words[i]`). -/
inductive Key where
  | str (s : String)
  | tup (l : List String)
deriving DecidableEq

/-- The token list a state value expands to:
`list(current_state) if isinstance(current_state, tuple) else [current_state]`. -/
def Key.toList : Key → List String
  | .str s => [s]
  | .tup l => l

/-- Python truthiness of a state value: a string is truthy iff nonempty,
a tuple is truthy iff nonempty. -/
def Key.truthy : Key → Bool
  | .str s => !(s == "")
  | .tup l => !l.isEmpty

/-- A successor-count dict (`{next_word: count}`), insertion ordered. -/
abbrev Counts := List (String × Nat)

/-- A transition table (`{context: {next_word: count}}`), insertion ordered. -/
abbrev Chain := List (Key × Counts)

/-- Dict lookup in a successor-count dict. -/
def countsGet (c : Counts) (w : String) : Option Nat :=
  match c with
  | [] => none
  | (w', m) :: rest => if w' = w then some m else countsGet rest w

/-- Dict lookup in a transition table. -/
def chGet (ch : Chain) (k : Key) : Option Counts :=
  match ch with
  | [] => none
  | (k', c) :: rest => if k' = k then some c else chGet rest k

/-- `d[next_word] = d.get(next_word, 0) + 1` on a successor-count dict:
update in place, or append a fresh entry with count 1. -/
def bumpCounts (c : Counts) (w : String) : Counts :=
  match c with
  | [] => [(w, 1)]
  | (w', m) :: rest =>
      if w' = w then (w', m + 1) :: rest else (w', m) :: bumpCounts rest w

/-- The loop body of `build_ngram_chain`: insert `{}` for an unseen
context, then bump the successor's count. -/
def addTransition (ch : Chain) (k : Key) (w : String) : Chain :=
  match ch with
  | [] => [(k, [(w, 1)])]
  | (k', c) :: rest =>
      if k' = k then (k', bumpCounts c w) :: rest
      else (k', c) :: addTransition rest k w

/-- `tuple(words[i:i+n]) if n > 1 else words[i]`. -/
def contextKey (words : List String) (i n : Nat) : Key :=
  if n > 1 then Key.tup ((words.drop i).take n) else Key.str (words.getD i "")

/-- One iteration of `build_ngram_chain`'s `for i in range(len(words) - n)`
loop at index `i`. -/
def buildStep (words : List String) (n : Nat) (ch : Chain) (i : Nat) : Chain :=
  addTransition ch (contextKey words i n) (words.getD (i + n) "")

/-- `build_ngram_chain(words, n)`: raises `ValueError` when fewer than
`n + 1` words are available, otherwise folds the loop body over
`range(len(words) - n)` starting from the empty dict. -/
def build_ngram_chain (words : List String) (n : Nat) : Except String Chain :=
  if words.length < n + 1 then
    .error ("Need at least " ++ toString (n + 1) ++ " words to build a "
      ++ toString n ++ "-gram chain")
  else
    .ok ((List.range (words.length - n)).foldl (buildStep words n) [])

/-- Sum of all successor counts over all contexts of a table. -/
def totalCount (ch : Chain) : Nat :=
  (ch.map (fun p => (p.2.map Prod.snd).sum)).sum

/-- The stored count for a (context, successor) pair, 0 when absent. -/
def countVal (ch : Chain) (k : Key) (w : String) : Nat :=
  match chGet ch k with
  | none => 0
  | some c => (countsGet c w).getD 0

/-- Whether a (context, successor) pair is recorded in the table. -/
def succIn (ch : Chain) (k : Key) (w : String) : Bool :=
  match chGet ch k with
  | none => false
  | some c => (countsGet c w).isSome

/-- Whether a context key is present in the table. -/
def keyIn (ch : Chain) (k : Key) : Bool :=
  (chGet ch k).isSome

/-- `list(chain.keys())` in insertion order. -/
def chainKeys (ch : Chain) : List Key :=
  ch.map Prod.fst

/-- `random.choice(list(chain.keys()))`, driven by one tape value. -/
def pickKey (ch : Chain) (t : Nat) : Key :=
  (chainKeys ch).getD (t % ch.length) (Key.str "")

/-- Start-state resolution of `generate_text`: a truthy `start` is used
verbatim, otherwise (absent or falsy) a key is drawn from the table,
consuming one tape value. -/
def resolve_state (ch : Chain) (start : Option Key) (tape : List Nat) :
    Key × List Nat :=
  match start with
  | some k => if k.truthy then (k, tape) else (pickKey ch (tape.headD 0), tape.tail)
  | none => (pickKey ch (tape.headD 0), tape.tail)

/-- `tuple(output[-ngram:]) if ngram > 1 else output[-1]`; indexing the
empty list raises `IndexError`. -/
def stateKey (output : List String) (ngram : Nat) : Except String Key :=
  if ngram > 1 then .ok (Key.tup (output.drop (output.length - ngram)))
  else
    match output.getLast? with
    | some w => .ok (Key.str w)
    | none => .error "IndexError"

/-- `random.choices(words, weights=weights)[0]` on a successor-count
dict, driven by one tape value: each candidate appears `count` times in
the expansion, so candidates are drawn with the recorded weights; an
empty expansion (empty dict, or all weights zero) raises. -/
def weightedPick (c : Counts) (t : Nat) : Except String String :=
  match (c.map (fun p => List.replicate p.2 p.1)).flatten with
  | [] => .error "ValueError"
  | w :: ws => .ok ((w :: ws).getD (t % (w :: ws).length) w)

/-- The `while len(output) < length` loop of `generate_text`. Each
iteration appends one token, so `length` units of fuel always outlast
the loop: when the fuel hits 0 the loop condition is already false. -/
def genLoop (ch : Chain) (len ngram : Nat) :
    Nat → List String → List Nat → Except String (List String)
  | 0, output, _ => .ok output
  | fuel + 1, output, tape =>
    if output.length < len then
      match stateKey output ngram with
      | .error e => .error e
      | .ok key =>
        match chGet ch key with
        | none => .ok output
        | some c =>
          match weightedPick c (tape.headD 0) with
          | .error e => .error e
          | .ok w => genLoop ch len ngram fuel (output ++ [w]) tape.tail
    else .ok output

/-- `generate_text(chain, length, ngram, start)`: raises on an empty
table, resolves the start state, then extends it by the loop. The
result is the token list (the source renders it with `' '.join`). -/
def generate_text (ch : Chain) (len ngram : Nat) (start : Option Key)
    (tape : List Nat) : Except String (List String) :=
  if ch.isEmpty then .error "Empty Markov chain"
  else
    genLoop ch len ngram len
      ((resolve_state ch start tape).1.toList)
      (resolve_state ch start tape).2

/-- `key[0]` as used by the orchestration line on tuple keys: the first
component; on a bare-string key, Python indexes the first character
(raising on the empty string, modelled as `none`). -/
def keyHead : Key → Option String
  | .tup l => l.head?
  | .str s => if s.isEmpty then none else some (s.take 1)

/-- The `__main__` starting-context selection:
`next((key for key in chain.keys() if key[0] == starting_word),
random.choice(list(chain.keys())))`. -/
def start_key (ch : Chain) (w : String) (t : Nat) : Key :=
  match (chainKeys ch).find? (fun k => keyHead k == some w) with
  | some k => k
  | none => pickKey ch t

/-- `' '.join(tokens)`. -/
def join_tokens : List String → String
  | [] => ""
  | [t] => t
  | t :: t' :: ts => t ++ " " ++ join_tokens (t' :: ts)

/-- A word character of the tokenizer's character classes (`\w`),
restricted to ASCII: letters, digits, underscore. -/
def isWordChar (c : Char) : Bool :=
  c.isAlphanum || c == '_'

/-- A character kept by `re.sub(r'[^\w\s\.]', '', line)`. -/
def isKeptChar (c : Char) : Bool :=
  isWordChar c || c.isWhitespace || c == '.'

/-- An apostrophe or backtick, the characters deleted by the
`replace` chain of `clean_txt` (the quote variants are first normalised
to a plain apostrophe, then all apostrophes are removed). -/
def aposChar (c : Char) : Bool :=
  c == Char.ofNat 39 || c == Char.ofNat 96

/-- The per-line normalisation of `clean_txt`: lowercase, delete
apostrophes/backticks, strip everything that is not a word character,
whitespace, or a period. -/
def normalizeLine (l : List Char) : List Char :=
  ((l.map Char.toLower).filter (fun c => !aposChar c)).filter isKeptChar

/-- Left-to-right scan implementing
`re.findall(r'\b[a-z]+\b|\.', line)` on the normalised line.
`buf` is the pending run of `[a-z]` characters that started at a word
boundary; `blocked` records that the previous character was a word
character (so no new run may start here). A run is emitted when it ends
at a non-word character or at the end of input (both word boundaries);
it is discarded when it runs into a word character that is not a
lowercase letter (no boundary, and backtracking inside the run cannot
produce one); a period matches on its own at any position. -/
def scanTokens (blocked : Bool) (buf : List Char) :
    List Char → List String
  | [] => if buf.isEmpty then [] else [String.mk buf]
  | c :: cs =>
    if c.isLower then
      if buf.isEmpty && blocked then scanTokens true [] cs
      else scanTokens false (buf ++ [c]) cs
    else if isWordChar c then scanTokens true [] cs
    else if c == '.' then
      (if buf.isEmpty then [] else [String.mk buf]) ++ "." :: scanTokens false [] cs
    else
      (if buf.isEmpty then [] else [String.mk buf]) ++ scanTokens false [] cs

/-- `txt.splitlines()` on newline characters. (Unlike Python this keeps
a trailing empty segment; blank segments are discarded by the caller, so
the produced tokens agree.) -/
def splitLines : List Char → List (List Char)
  | [] => [[]]
  | c :: cs =>
    if c == '\n' then [] :: splitLines cs
    else
      match splitLines cs with
      | [] => [[c]]
      | l :: ls => (c :: l) :: ls

/-- The body of `clean_txt` on the character list of the input: process
each line that is nonblank after stripping, concatenating the per-line
token lists in order. -/
def cleanChars (l : List Char) : List String :=
  ((splitLines l).map (fun line =>
    if line.all Char.isWhitespace then []
    else scanTokens false [] (normalizeLine line))).flatten

/-- `clean_txt(txt)`: return `[]` for blank input, otherwise tokenize
line by line. -/
def clean_txt (txt : String) : List String :=
  if txt.toList.all Char.isWhitespace then [] else cleanChars txt.toList

/-- Character-list version of `join_tokens`, used to reason about the
characters of `' '.join(tokens)`. -/
def joinChars : List String → List Char
  | [] => []
  | [t] => t.toList
  | t :: t' :: ts => t.toList ++ ' ' :: joinChars (t' :: ts)

/-- A token `clean_txt` can produce: a literal period, or a nonempty run
of lowercase ASCII letters. -/
def goodTok (s : String) : Bool :=
  s == "." || (!s.toList.isEmpty && s.toList.all Char.isLower)

/-! ## Dictionary semantics of the chain-building step -/

theorem countsGet_bumpCounts (c : Counts) (w w' : String) :
    countsGet (bumpCounts c w) w' =
      if w' = w then some ((countsGet c w).getD 0 + 1) else countsGet c w' := by
  induction c with
  | nil =>
    by_cases h : w' = w
    · subst h; simp [bumpCounts, countsGet]
    · have h' : ¬w = w' := fun he => h he.symm
      simp [bumpCounts, countsGet, h, h']
  | cons p rest ih =>
    obtain ⟨w0, m⟩ := p
    by_cases h0 : w0 = w
    · subst h0
      by_cases h : w' = w0
      · subst h; simp [bumpCounts, countsGet]
      · have h' : ¬w0 = w' := fun he => h he.symm
        simp [bumpCounts, countsGet, h, h']
    · by_cases h : w' = w0
      · subst h
        have hne : ¬w' = w := fun he => h0 (he ▸ rfl)
        simp [bumpCounts, countsGet, h0, hne]
      · have h' : ¬w0 = w' := fun he => h (he ▸ rfl)
        simp [bumpCounts, countsGet, h0, h', ih]

theorem chGet_addTransition (ch : Chain) (k k' : Key) (w : String) :
    chGet (addTransition ch k w) k' =
      if k' = k then some (bumpCounts ((chGet ch k).getD []) w)
      else chGet ch k' := by
  induction ch with
  | nil =>
    by_cases h : k' = k
    · subst h; simp [addTransition, chGet, bumpCounts]
    · have h' : ¬k = k' := fun he => h he.symm
      simp [addTransition, chGet, h, h']
  | cons p rest ih =>
    obtain ⟨k0, c⟩ := p
    by_cases h0 : k0 = k
    · subst h0
      by_cases h : k' = k0
      · subst h; simp [addTransition, chGet]
      · have h' : ¬k0 = k' := fun he => h he.symm
        simp [addTransition, chGet, h, h', bumpCounts]
    · by_cases h : k' = k0
      · subst h
        have hne : ¬k' = k := fun he => h0 (he ▸ rfl)
        simp [addTransition, chGet, h0, hne]
      · have h' : ¬k0 = k' := fun he => h (he ▸ rfl)
        simp [addTransition, chGet, h0, h', ih]

theorem countVal_addTransition (ch : Chain) (k k' : Key) (w w' : String) :
    countVal (addTransition ch k w) k' w' =
      countVal ch k' w' + (if k' = k ∧ w' = w then 1 else 0) := by
  by_cases hk : k' = k
  · subst hk
    cases h : chGet ch k' <;> by_cases hw : w' = w
    · simp [countVal, chGet_addTransition, h, countsGet_bumpCounts, hw, countsGet]
    · simp [countVal, chGet_addTransition, h, countsGet_bumpCounts, hw, Ne.symm hw,
        countsGet]
    · simp [countVal, chGet_addTransition, h, countsGet_bumpCounts, hw, countsGet]
    · simp [countVal, chGet_addTransition, h, countsGet_bumpCounts, hw, Ne.symm hw,
        countsGet]
  · simp [countVal, chGet_addTransition, hk]

theorem succIn_addTransition (ch : Chain) (k k' : Key) (w w' : String) :
    succIn (addTransition ch k w) k' w' =
      (succIn ch k' w' || (decide (k' = k) && decide (w' = w))) := by
  by_cases hk : k' = k
  · subst hk
    cases h : chGet ch k' <;> by_cases hw : w' = w
    · simp [succIn, chGet_addTransition, h, countsGet_bumpCounts, hw, countsGet]
    · simp [succIn, chGet_addTransition, h, countsGet_bumpCounts, hw, Ne.symm hw,
        countsGet]
    · simp [succIn, chGet_addTransition, h, countsGet_bumpCounts, hw, countsGet]
    · simp [succIn, chGet_addTransition, h, countsGet_bumpCounts, hw, Ne.symm hw,
        countsGet]
  · simp [succIn, chGet_addTransition, hk]

theorem keyIn_addTransition (ch : Chain) (k k' : Key) (w : String) :
    keyIn (addTransition ch k w) k' = (keyIn ch k' || decide (k' = k)) := by
  by_cases hk : k' = k <;> simp [keyIn, chGet_addTransition, hk]

theorem sum_bumpCounts (c : Counts) (w : String) :
    ((bumpCounts c w).map Prod.snd).sum = (c.map Prod.snd).sum + 1 := by
  induction c with
  | nil => simp [bumpCounts]
  | cons p rest ih =>
    obtain ⟨w0, m⟩ := p
    by_cases h : w0 = w <;> simp [bumpCounts, h, ih] <;> omega

theorem totalCount_addTransition (ch : Chain) (k : Key) (w : String) :
    totalCount (addTransition ch k w) = totalCount ch + 1 := by
  induction ch with
  | nil => simp [addTransition, totalCount]
  | cons p rest ih =>
    obtain ⟨k0, c⟩ := p
    by_cases h : k0 = k <;>
      simp [addTransition, totalCount, h, sum_bumpCounts] <;>
      simp [totalCount] at ih <;> omega

/-! ## The fold of the build loop -/

theorem countVal_buildFold (words : List String) (n : Nat) (l : List Nat)
    (ch : Chain) (k : Key) (w : String) :
    countVal (l.foldl (buildStep words n) ch) k w =
      countVal ch k w +
        l.countP (fun i =>
          decide (k = contextKey words i n) && decide (w = words.getD (i + n) "")) := by
  induction l generalizing ch with
  | nil => simp
  | cons i l ih =>
    rw [List.foldl_cons, ih, List.countP_cons]
    simp only [buildStep]
    rw [countVal_addTransition]
    by_cases h1 : k = contextKey words i n <;>
      by_cases h2 : w = words.getD (i + n) "" <;>
      simp [h1, h2] <;> omega

theorem succIn_buildFold (words : List String) (n : Nat) (l : List Nat)
    (ch : Chain) (k : Key) (w : String) :
    succIn (l.foldl (buildStep words n) ch) k w =
      (succIn ch k w ||
        l.any (fun i =>
          decide (k = contextKey words i n) && decide (w = words.getD (i + n) ""))) := by
  induction l generalizing ch with
  | nil => simp
  | cons i l ih =>
    rw [List.foldl_cons, ih, List.any_cons]
    simp only [buildStep]
    rw [succIn_addTransition]
    by_cases h1 : k = contextKey words i n <;>
      by_cases h2 : w = words.getD (i + n) "" <;>
      simp [h1, h2, Bool.or_assoc]

theorem keyIn_buildFold (words : List String) (n : Nat) (l : List Nat)
    (ch : Chain) (k : Key) :
    keyIn (l.foldl (buildStep words n) ch) k =
      (keyIn ch k || l.any (fun i => decide (k = contextKey words i n))) := by
  induction l generalizing ch with
  | nil => simp
  | cons i l ih =>
    rw [List.foldl_cons, ih, List.any_cons]
    simp only [buildStep]
    rw [keyIn_addTransition]
    by_cases h1 : k = contextKey words i n <;> simp [h1, Bool.or_assoc]

theorem totalCount_buildFold (words : List String) (n : Nat) (l : List Nat)
    (ch : Chain) :
    totalCount (l.foldl (buildStep words n) ch) = totalCount ch + l.length := by
  induction l generalizing ch with
  | nil => simp
  | cons i l ih =>
    rw [List.foldl_cons, ih]
    simp only [buildStep]
    rw [totalCount_addTransition]
    simp only [List.length_cons]
    omega

/-- C1: for every `n ≥ 1` and corpus of length at least `n + 1`, the
table built by `build_ngram_chain` has total successor count (summed
over all contexts) equal to `length(corpus) - n`. -/
theorem build_total_counts (words : List String) (n : Nat) (hpos : 1 ≤ n)
    (h2 : n + 1 ≤ words.length) (ch : Chain)
    (hb : build_ngram_chain words n = .ok ch) :
    totalCount ch = words.length - n := by
  unfold build_ngram_chain at hb
  rw [if_neg (by omega)] at hb
  injection hb with hb
  subst hb
  rw [totalCount_buildFold]
  simp [totalCount]

/-- Witness for C1 on the spec's own example corpus. -/
theorem build_total_counts_witness :
    totalCount [(Key.str "a", [("b", 2), ("c", 1)]), (Key.str "b", [("a", 2)])] = 5 :=
  build_total_counts ["a", "b", "a", "b", "a", "c"] 1 (by decide) (by decide) _ rfl

/-- C3: for every positive `n`, `build_ngram_chain` fails with the
insufficient-data error (naming the required minimum `n + 1`) exactly
when the corpus has fewer than `n + 1` tokens, and succeeds otherwise. -/
theorem build_insufficient_data (words : List String) (n : Nat) (hpos : 0 < n) :
    (words.length < n + 1 →
      build_ngram_chain words n =
        .error ("Need at least " ++ toString (n + 1) ++ " words to build a "
          ++ toString n ++ "-gram chain")) ∧
    (n + 1 ≤ words.length → ∃ ch, build_ngram_chain words n = .ok ch) := by
  constructor
  · intro hl
    unfold build_ngram_chain
    rw [if_pos hl]
  · intro hl
    unfold build_ngram_chain
    rw [if_neg (by omega)]
    exact ⟨_, rfl⟩

/-- Witness for C3: `build(["x"], n=1)` fails with the error naming the
minimum of 2 tokens. -/
theorem build_insufficient_data_witness :
    build_ngram_chain ["x"] 1 =
      .error "Need at least 2 words to build a 1-gram chain" :=
  (build_insufficient_data ["x"] 1 (by decide)).1 (by decide)

/-- C4: in every table returned by `build_ngram_chain`, a
(context, successor) pair is recorded iff the context's token
subsequence occurs at some corpus position immediately followed by that
successor; a context key is present iff it occurs followed by some
successor; and every recorded pair's stored count is at least 1. -/
theorem build_table_invariants (words : List String) (n : Nat) (ch : Chain)
    (hb : build_ngram_chain words n = .ok ch) :
    (∀ k w, succIn ch k w = true ↔
      ∃ i, i + n < words.length ∧ k = contextKey words i n ∧
        w = words.getD (i + n) "") ∧
    (∀ k, keyIn ch k = true ↔
      ∃ i, i + n < words.length ∧ k = contextKey words i n) ∧
    (∀ k w, succIn ch k w = true → 1 ≤ countVal ch k w) := by
  have hlen : ¬ words.length < n + 1 := by
    intro hcon
    unfold build_ngram_chain at hb
    rw [if_pos hcon] at hb
    cases hb
  unfold build_ngram_chain at hb
  rw [if_neg hlen] at hb
  injection hb with hb
  subst hb
  have hs : ∀ k w,
      succIn ((List.range (words.length - n)).foldl (buildStep words n) []) k w = true ↔
      ∃ i, i + n < words.length ∧ k = contextKey words i n ∧
        w = words.getD (i + n) "" := by
    intro k w
    rw [succIn_buildFold]
    simp only [show succIn [] k w = false from rfl, Bool.false_or,
      List.any_eq_true, List.mem_range, Bool.and_eq_true, decide_eq_true_eq]
    constructor
    · rintro ⟨i, hi, h1, h2⟩
      exact ⟨i, by omega, h1, h2⟩
    · rintro ⟨i, hi, h1, h2⟩
      exact ⟨i, by omega, h1, h2⟩
  refine ⟨hs, ?_, ?_⟩
  · intro k
    rw [keyIn_buildFold]
    simp only [show keyIn [] k = false from rfl, Bool.false_or,
      List.any_eq_true, List.mem_range, decide_eq_true_eq]
    constructor
    · rintro ⟨i, hi, h1⟩
      exact ⟨i, by omega, h1⟩
    · rintro ⟨i, hi, h1⟩
      exact ⟨i, by omega, h1⟩
  · intro k w hsucc
    rw [hs k w] at hsucc
    obtain ⟨i, hi, h1, h2⟩ := hsucc
    rw [countVal_buildFold]
    have : 0 < (List.range (words.length - n)).countP
        (fun i => decide (k = contextKey words i n) &&
          decide (w = words.getD (i + n) "")) := by
      rw [List.countP_pos_iff]
      exact ⟨i, List.mem_range.mpr (by omega), by simp [h1, h2]⟩
    omega

/-- Witness for C4: applying the invariant theorem to the table built
from the spec's example corpus at the recorded pair `("a", "b")`. -/
theorem build_table_invariants_witness :
    1 ≤ countVal [(Key.str "a", [("b", 2), ("c", 1)]), (Key.str "b", [("a", 2)])]
      (Key.str "a") "b" :=
  (build_table_invariants ["a", "b", "a", "b", "a", "c"] 1 _ rfl).2.2
    (Key.str "a") "b" (by decide)

/-- C5: calling `generate_text` on a table with zero entries fails with
the empty-chain error, for every length, order, start, and random tape. -/
theorem generate_empty_chain (len ngram : Nat) (start : Option Key)
    (tape : List Nat) :
    generate_text [] len ngram start tape = .error "Empty Markov chain" := rfl

/-- C10: the empty-table check precedes start-state resolution: even an
explicitly provided, truthy start context is never returned — the call
on an empty table raises instead. -/
theorem generate_empty_checks_first (len ngram : Nat) (k : Key)
    (tape : List Nat) :
    generate_text [] len ngram (some k) tape = .error "Empty Markov chain" ∧
    ∀ out, ¬ generate_text [] len ngram (some k) tape = .ok out :=
  ⟨rfl, fun _ h => nomatch h⟩

/-- C6: a falsy `start` (empty string or empty tuple) behaves exactly
like an omitted `start`: the whole call is identical to the no-start
call, and on a non-empty table the resolved initial state is one of the
table's keys (drawn from them by the random source), not the provided
falsy value. -/
theorem generate_falsy_start (ch : Chain) (len ngram : Nat) (k : Key)
    (tape : List Nat) (hk : k.truthy = false) :
    generate_text ch len ngram (some k) tape = generate_text ch len ngram none tape ∧
    (ch ≠ [] → (resolve_state ch (some k) tape).1 ∈ chainKeys ch) := by
  have hr : resolve_state ch (some k) tape = resolve_state ch none tape := by
    simp [resolve_state, hk]
  constructor
  · unfold generate_text
    rw [hr]
  · intro hne
    have hlen : 0 < ch.length := List.length_pos.mpr hne
    have hlt : tape.headD 0 % ch.length < (chainKeys ch).length := by
      rw [chainKeys, List.length_map]
      exact Nat.mod_lt _ hlen
    rw [hr]
    show pickKey ch (tape.headD 0) ∈ chainKeys ch
    rw [pickKey, List.getD_eq_getElem _ _ hlt]
    exact List.getElem_mem _

/-- Witness for C6: the empty-string start behaves like no start on a
concrete one-entry table. -/
theorem generate_falsy_start_witness :
    generate_text [(Key.str "a", [("b", 1)])] 2 1 (some (Key.str "")) [0, 0] =
      generate_text [(Key.str "a", [("b", 1)])] 2 1 none [0, 0] :=
  (generate_falsy_start [(Key.str "a", [("b", 1)])] 2 1 (Key.str "") [0, 0]
    (by decide)).1

/-! ## Length bounds of the generation loop -/

theorem genLoop_ok_bounds (ch : Chain) (len ngram : Nat) :
    ∀ (fuel : Nat) (output : List String) (tape : List Nat) (out : List String),
      genLoop ch len ngram fuel output tape = .ok out →
      output.length ≤ out.length ∧ out.length ≤ max len output.length := by
  intro fuel
  induction fuel with
  | zero =>
    intro output tape out h
    injection h with h
    subst h
    exact ⟨Nat.le_refl _, Nat.le_max_right _ _⟩
  | succ fuel ih =>
    intro output tape out h
    unfold genLoop at h
    split at h
    · cases hsk : stateKey output ngram with
      | error e => rw [hsk] at h; cases h
      | ok key =>
        rw [hsk] at h
        simp only [] at h
        cases hcg : chGet ch key with
        | none =>
          rw [hcg] at h
          injection h with h
          subst h
          exact ⟨Nat.le_refl _, Nat.le_max_right _ _⟩
        | some c =>
          rw [hcg] at h
          simp only [] at h
          cases hwp : weightedPick c (tape.headD 0) with
          | error e => rw [hwp] at h; cases h
          | ok w =>
            rw [hwp] at h
            obtain ⟨hlo, hhi⟩ := ih (output ++ [w]) tape.tail out h
            simp only [List.length_append, List.length_cons, List.length_nil] at hlo hhi
            have hc : output.length < len := by assumption
            have h1 : max len (output.length + 1) = len := Nat.max_eq_left (by omega)
            have h2 : max len output.length = len := Nat.max_eq_left (by omega)
            rw [h1] at hhi
            rw [h2]
            omega
    · injection h with h
      subst h
      exact ⟨Nat.le_refl _, Nat.le_max_right _ _⟩

/-- C2 counterexample: a truthy start context longer than the requested
length is returned whole, so the output exceeds the requested length.
Here `length = 1` but the two-token start is returned verbatim. -/
theorem generate_length_claim_counterexample :
    generate_text [(Key.str "a", [("b", 1)])] 1 2 (some (Key.tup ["x", "y"])) []
      = .ok ["x", "y"] ∧ 1 < (["x", "y"] : List String).length :=
  ⟨rfl, by decide⟩

theorem genLoop_ok_early_term (ch : Chain) (len ngram : Nat) :
    ∀ (fuel : Nat) (output : List String) (tape : List Nat) (out : List String),
      len ≤ fuel + output.length →
      genLoop ch len ngram fuel output tape = .ok out →
      out.length < len →
      ∃ key, stateKey out ngram = .ok key ∧ keyIn ch key = false := by
  intro fuel
  induction fuel with
  | zero =>
    intro output tape out hfuel h hshort
    injection h with h
    subst h
    omega
  | succ fuel ih =>
    intro output tape out hfuel h hshort
    unfold genLoop at h
    split at h
    · cases hsk : stateKey output ngram with
      | error e => rw [hsk] at h; cases h
      | ok key =>
        rw [hsk] at h
        simp only [] at h
        cases hcg : chGet ch key with
        | none =>
          rw [hcg] at h
          injection h with h
          subst h
          exact ⟨key, hsk, by simp [keyIn, hcg]⟩
        | some c =>
          rw [hcg] at h
          simp only [] at h
          cases hwp : weightedPick c (tape.headD 0) with
          | error e => rw [hwp] at h; cases h
          | ok w =>
            rw [hwp] at h
            refine ih (output ++ [w]) tape.tail out ?_ h hshort
            simp only [List.length_append, List.length_singleton]
            omega
    · injection h with h
      subst h
      omega

/-- C2 (amended): whenever `generate_text` returns a token sequence, it
is never shorter than the resolved initial start context, never longer
than the maximum of the requested length and the initial start
context's length (the output can exceed the requested length exactly
when the start context itself is already longer; for a start of length
at most the requested length the original upper bound holds), and it is
shorter than the requested length only through early termination: the
context formed by the last `n` generated tokens has no entry in the
table. -/
theorem generate_length_bounds (ch : Chain) (len ngram : Nat)
    (start : Option Key) (tape : List Nat) (out : List String)
    (h : generate_text ch len ngram start tape = .ok out) :
    (resolve_state ch start tape).1.toList.length ≤ out.length ∧
    out.length ≤ max len (resolve_state ch start tape).1.toList.length ∧
    (out.length < len →
      ∃ key, stateKey out ngram = .ok key ∧ keyIn ch key = false) := by
  unfold generate_text at h
  split at h
  · cases h
  · obtain ⟨h1, h2⟩ := genLoop_ok_bounds ch len ngram len _ _ out h
    exact ⟨h1, h2, genLoop_ok_early_term ch len ngram len _ _ out (by omega) h⟩

/-- Witness for the amended C2 on a concrete generation run that does
terminate early: the walk reaches the context "b", which has no entry
in the table, and stops one token short of the requested length. -/
theorem generate_length_bounds_witness :
    (resolve_state [(Key.str "a", [("b", 1)])] none [0, 0]).1.toList.length ≤
        (["a", "b"] : List String).length ∧
      (["a", "b"] : List String).length ≤
        max 3 (resolve_state [(Key.str "a", [("b", 1)])] none [0, 0]).1.toList.length ∧
      ((["a", "b"] : List String).length < 3 →
        ∃ key, stateKey ["a", "b"] 1 = .ok key ∧
          keyIn [(Key.str "a", [("b", 1)])] key = false) :=
  generate_length_bounds [(Key.str "a", [("b", 1)])] 3 1 none [0, 0] ["a", "b"] rfl

/-! ## Every generated token is a recorded successor -/

theorem getD_cons_self_mem (x : String) (l : List String) (n : Nat) :
    (x :: l).getD n x ∈ x :: l := by
  by_cases h : n < (x :: l).length
  · rw [List.getD_eq_getElem _ _ h]
    exact List.getElem_mem _
  · rw [List.getD_eq_default _ _ (by omega)]
    exact List.mem_cons_self _ _

theorem countsGet_isSome_of_mem_fst (c : Counts) (w : String)
    (h : w ∈ c.map Prod.fst) : (countsGet c w).isSome = true := by
  induction c with
  | nil => simp at h
  | cons p rest ih =>
    obtain ⟨w0, m⟩ := p
    by_cases he : w0 = w
    · simp [countsGet, he]
    · have : w ∈ rest.map Prod.fst := by
        simp only [List.map_cons, List.mem_cons] at h
        rcases h with h | h
        · exact absurd h.symm he
        · exact h
      simp [countsGet, he, ih this]

theorem weightedPick_ok_mem (c : Counts) (t : Nat) (w : String)
    (h : weightedPick c t = .ok w) : (countsGet c w).isSome = true := by
  unfold weightedPick at h
  cases hf : (c.map fun p => List.replicate p.2 p.1).flatten with
  | nil => rw [hf] at h; cases h
  | cons w0 ws =>
    rw [hf] at h
    injection h with h
    have hmem : w ∈ w0 :: ws := h ▸ getD_cons_self_mem w0 ws _
    rw [← hf, List.mem_flatten] at hmem
    obtain ⟨l, hl, hwl⟩ := hmem
    rw [List.mem_map] at hl
    obtain ⟨p, hp, rfl⟩ := hl
    have hw : w = p.1 := List.eq_of_mem_replicate hwl
    subst hw
    exact countsGet_isSome_of_mem_fst c p.1 (List.mem_map.mpr ⟨p, hp, rfl⟩)

theorem genLoop_ok_successors (ch : Chain) (len ngram : Nat) :
    ∀ (fuel : Nat) (output : List String) (tape : List Nat) (out : List String),
      genLoop ch len ngram fuel output tape = .ok out →
      out.take output.length = output ∧
      ∀ j, output.length ≤ j → j < out.length →
        ∃ key, stateKey (out.take j) ngram = .ok key ∧
          succIn ch key (out.getD j "") = true := by
  intro fuel
  induction fuel with
  | zero =>
    intro output tape out h
    injection h with h
    subst h
    exact ⟨List.take_length _, fun j hj hj2 => absurd hj2 (by omega)⟩
  | succ fuel ih =>
    intro output tape out h
    unfold genLoop at h
    split at h
    · cases hsk : stateKey output ngram with
      | error e => rw [hsk] at h; cases h
      | ok key =>
        rw [hsk] at h
        simp only [] at h
        cases hcg : chGet ch key with
        | none =>
          rw [hcg] at h
          injection h with h
          subst h
          exact ⟨List.take_length _, fun j hj hj2 => absurd hj2 (by omega)⟩
        | some c =>
          rw [hcg] at h
          simp only [] at h
          cases hwp : weightedPick c (tape.headD 0) with
          | error e => rw [hwp] at h; cases h
          | ok w =>
            rw [hwp] at h
            obtain ⟨hpre, hsucc⟩ := ih (output ++ [w]) tape.tail out h
            simp only [List.length_append, List.length_singleton] at hpre hsucc
            have hlt1 : (out.take (output.length + 1)).length = output.length + 1 := by
              rw [hpre, List.length_append]
              rfl
            have hmin : min (output.length + 1) out.length = output.length + 1 := by
              rw [← List.length_take]
              exact hlt1
            have hmle := Nat.min_le_right (output.length + 1) out.length
            rw [hmin] at hmle
            have hpre0 : out.take output.length = output := by
              have ht : (out.take (output.length + 1)).take output.length = output := by
                rw [hpre]
                exact List.take_left output [w]
              rw [List.take_take, Nat.min_eq_left (by omega)] at ht
              exact ht
            refine ⟨hpre0, ?_⟩
            intro j hj1 hj2
            by_cases hje : j = output.length
            · subst hje
              refine ⟨key, ?_, ?_⟩
              · rw [hpre0]
                exact hsk
              · have hgd : out.getD output.length "" = w := by
                  have h3 : (out.take (output.length + 1))[output.length]? =
                      out[output.length]? := by
                    rw [List.getElem?_take, if_pos (by omega)]
                  rw [hpre, List.getElem?_append_right (Nat.le_refl _)] at h3
                  simp only [Nat.sub_self, List.getElem?_cons_zero] at h3
                  rw [List.getD_eq_getElem?_getD, ← h3]
                  rfl
                rw [hgd]
                simp only [succIn, hcg]
                exact weightedPick_ok_mem c _ w hwp
            · exact hsucc j (by omega) hj2
    · injection h with h
      subst h
      exact ⟨List.take_length _, fun j hj hj2 => absurd hj2 (by omega)⟩

/-- C9: every token `generate_text` appends beyond the resolved start
state is a recorded successor of the context formed by the preceding
`n` tokens (the bare last token for `n = 1`), so that context is present
in the table. -/
theorem generate_appended_successors (ch : Chain) (len ngram : Nat)
    (start : Option Key) (tape : List Nat) (out : List String)
    (h : generate_text ch len ngram start tape = .ok out) :
    ∀ j, (resolve_state ch start tape).1.toList.length ≤ j → j < out.length →
      ∃ key, stateKey (out.take j) ngram = .ok key ∧
        succIn ch key (out.getD j "") = true := by
  unfold generate_text at h
  split at h
  · cases h
  · exact (genLoop_ok_successors ch len ngram len _ _ out h).2

/-- Witness for C9 on a concrete run: the appended second token extends
a context present in the table. -/
theorem generate_appended_successors_witness :
    ∃ key, stateKey ((["a", "a"] : List String).take 1) 1 = .ok key ∧
      succIn [(Key.str "a", [("a", 1)])] key ((["a", "a"] : List String).getD 1 "")
        = true :=
  generate_appended_successors [(Key.str "a", [("a", 1)])] 2 1 none [0, 0]
    ["a", "a"] rfl 1 (by decide) (by decide)

/-! ## Start-context selection at the orchestration level -/

theorem pickKey_mem (ch : Chain) (t : Nat) (hne : ch ≠ []) :
    pickKey ch t ∈ chainKeys ch := by
  have hlen : 0 < ch.length := List.length_pos.mpr hne
  have hlt : t % ch.length < (chainKeys ch).length := by
    rw [chainKeys, List.length_map]
    exact Nat.mod_lt _ hlen
  rw [pickKey, List.getD_eq_getElem _ _ hlt]
  exact List.getElem_mem _

theorem keyIn_of_mem_chainKeys (ch : Chain) (k : Key) (h : k ∈ chainKeys ch) :
    keyIn ch k = true := by
  induction ch with
  | nil => simp [chainKeys] at h
  | cons p rest ih =>
    obtain ⟨k0, c⟩ := p
    by_cases he : k0 = k
    · simp [keyIn, chGet, he]
    · simp only [chainKeys, List.map_cons, List.mem_cons] at h
      rcases h with h | h
      · exact absurd h.symm he
      · simp [keyIn, chGet, he]
        have := ih h
        simpa [keyIn] using this

theorem countsGet_mem (c : Counts) (w : String) (m : Nat)
    (h : countsGet c w = some m) : (w, m) ∈ c := by
  induction c with
  | nil => cases h
  | cons p rest ih =>
    obtain ⟨w0, m0⟩ := p
    by_cases he : w0 = w
    · subst he
      rw [countsGet, if_pos rfl] at h
      injection h with h
      subst h
      exact List.mem_cons_self _ _
    · rw [countsGet, if_neg he] at h
      exact List.mem_cons_of_mem _ (ih h)

theorem weightedPick_ok_of_pos (c : Counts)
    (hpos : ∃ p ∈ c, 1 ≤ p.2) (t : Nat) :
    ∃ w, weightedPick c t = .ok w := by
  obtain ⟨p, hp, hp1⟩ := hpos
  have hmem : p.1 ∈ (c.map fun q => List.replicate q.2 q.1).flatten := by
    rw [List.mem_flatten]
    exact ⟨List.replicate p.2 p.1, List.mem_map.mpr ⟨p, hp, rfl⟩,
      List.mem_replicate.mpr ⟨by omega, rfl⟩⟩
  unfold weightedPick
  cases hf : (c.map fun q => List.replicate q.2 q.1).flatten with
  | nil => rw [hf] at hmem; cases hmem
  | cons w0 ws => exact ⟨_, rfl⟩

theorem genLoop_ok_of_wf (ch : Chain) (len ngram : Nat) (hng : 2 ≤ ngram)
    (hwf : ∀ k c, chGet ch k = some c → ∃ p ∈ c, 1 ≤ p.2) :
    ∀ (fuel : Nat) (output : List String) (tape : List Nat),
      ∃ out, genLoop ch len ngram fuel output tape = .ok out := by
  intro fuel
  induction fuel with
  | zero => exact fun output tape => ⟨output, rfl⟩
  | succ fuel ih =>
    intro output tape
    unfold genLoop
    by_cases hc : output.length < len
    · rw [if_pos hc]
      have hsk : stateKey output ngram =
          .ok (Key.tup (output.drop (output.length - ngram))) := by
        unfold stateKey
        rw [if_pos (by omega)]
      rw [hsk]
      simp only []
      cases hcg : chGet ch (Key.tup (output.drop (output.length - ngram))) with
      | none => exact ⟨output, rfl⟩
      | some c =>
        simp only []
        obtain ⟨w, hwp⟩ := weightedPick_ok_of_pos c (hwf _ _ hcg) (tape.headD 0)
        rw [hwp]
        exact ih _ _
    · rw [if_neg hc]
      exact ⟨output, rfl⟩

/-- C7: for a bigram/trigram-style table (`n ≥ 2`) built by
`build_ngram_chain` and a globally chosen start word, the `__main__`
selection picks a context key whose first component is the start word
whenever one exists; otherwise it falls back to the randomly drawn
context key. In both cases the selected key is one of the table's keys
and generation from it succeeds (returns a sequence, no error). -/
theorem start_key_selection (words : List String) (n : Nat) (ch : Chain)
    (w : String) (t len : Nat) (tape : List Nat)
    (hn : 2 ≤ n) (hb : build_ngram_chain words n = .ok ch) :
    ((∃ k ∈ chainKeys ch, keyHead k = some w) →
      keyHead (start_key ch w t) = some w) ∧
    ((∀ k ∈ chainKeys ch, ¬ keyHead k = some w) →
      start_key ch w t = pickKey ch t) ∧
    start_key ch w t ∈ chainKeys ch ∧
    (∃ out, generate_text ch len n (some (start_key ch w t)) tape = .ok out) := by
  have hlen : ¬ words.length < n + 1 := by
    intro hcon
    unfold build_ngram_chain at hb
    rw [if_pos hcon] at hb
    cases hb
  unfold build_ngram_chain at hb
  rw [if_neg hlen] at hb
  injection hb with hb
  subst hb
  set CH := (List.range (words.length - n)).foldl (buildStep words n) [] with hCH
  have hk0 : keyIn CH (contextKey words 0 n) = true := by
    rw [hCH, keyIn_buildFold]
    simp only [show keyIn ([] : Chain) (contextKey words 0 n) = false from rfl,
      Bool.false_or, List.any_eq_true, List.mem_range, decide_eq_true_eq]
    exact ⟨0, by omega, rfl⟩
  have hne : CH ≠ [] := by
    intro he
    rw [he] at hk0
    simp [keyIn, chGet] at hk0
  have hshape : ∀ k, k ∈ chainKeys CH → ∃ x l, k = Key.tup (x :: l) := by
    intro k hk
    have hkin := keyIn_of_mem_chainKeys _ _ hk
    rw [hCH, keyIn_buildFold] at hkin
    simp only [show keyIn ([] : Chain) k = false from rfl,
      Bool.false_or, List.any_eq_true, List.mem_range, decide_eq_true_eq] at hkin
    obtain ⟨i, hi, hkeq⟩ := hkin
    subst hkeq
    rw [contextKey, if_pos (by omega)]
    have hlen2 : ((words.drop i).take n).length = min n (words.length - i) := by
      simp [List.length_take, List.length_drop]
    have hnn : (words.drop i).take n ≠ [] := by
      intro he
      rw [he] at hlen2
      simp at hlen2
      omega
    cases hc : (words.drop i).take n with
    | nil => exact absurd hc hnn
    | cons x l => exact ⟨x, l, rfl⟩
  have hwf : ∀ k c, chGet CH k = some c → ∃ p ∈ c, 1 ≤ p.2 := by
    intro k c hcg
    have hkey : keyIn CH k = true := by simp [keyIn, hcg]
    rw [hCH, keyIn_buildFold] at hkey
    simp only [show keyIn ([] : Chain) k = false from rfl,
      Bool.false_or, List.any_eq_true, List.mem_range, decide_eq_true_eq] at hkey
    obtain ⟨i, hi, hkeq⟩ := hkey
    have hsucc : succIn CH k (words.getD (i + n) "") = true := by
      rw [hCH, succIn_buildFold]
      simp only [show succIn ([] : Chain) k (words.getD (i + n) "") = false from rfl,
        Bool.false_or, List.any_eq_true, List.mem_range, Bool.and_eq_true,
        decide_eq_true_eq]
      exact ⟨i, hi, hkeq, rfl⟩
    have hcv : 1 ≤ countVal CH k (words.getD (i + n) "") := by
      rw [hCH, countVal_buildFold]
      have hp : 0 < (List.range (words.length - n)).countP
          (fun j => decide (k = contextKey words j n) &&
            decide (words.getD (i + n) "" = words.getD (j + n) "")) := by
        rw [List.countP_pos_iff]
        exact ⟨i, List.mem_range.mpr hi, by simp [hkeq]⟩
      omega
    simp only [countVal, hcg] at hcv
    cases hcs : countsGet c (words.getD (i + n) "") with
    | none => rw [hcs] at hcv; simp at hcv
    | some m =>
      rw [hcs] at hcv
      simp at hcv
      exact ⟨(words.getD (i + n) "", m), countsGet_mem _ _ _ hcs, by simpa⟩
  have hstart : start_key CH w t ∈ chainKeys CH := by
    unfold start_key
    cases hf : (chainKeys CH).find? (fun k => keyHead k == some w) with
    | none => exact pickKey_mem _ _ hne
    | some k => exact List.mem_of_find?_eq_some hf
  refine ⟨?_, ?_, hstart, ?_⟩
  · rintro ⟨k, hk, hkh⟩
    unfold start_key
    cases hf : (chainKeys CH).find? (fun k => keyHead k == some w) with
    | none =>
      exfalso
      rw [List.find?_eq_none] at hf
      exact hf k hk (by rw [hkh]; exact beq_self_eq_true _)
    | some k' =>
      have hp := List.find?_some hf
      show keyHead k' = some w
      exact eq_of_beq hp
  · intro hnone
    unfold start_key
    have hf : (chainKeys CH).find? (fun k => keyHead k == some w) = none := by
      rw [List.find?_eq_none]
      intro x hx hbeq
      exact hnone x hx (eq_of_beq hbeq)
    rw [hf]
  · have htr : (start_key CH w t).truthy = true := by
      obtain ⟨x, l, hxl⟩ := hshape _ hstart
      rw [hxl]
      rfl
    unfold generate_text
    rw [if_neg (by simpa [List.isEmpty_iff] using hne)]
    simp only [resolve_state, htr, if_pos]
    exact genLoop_ok_of_wf CH len n hn hwf len _ _

/-- Witness for C7 on the trigram-style table of a concrete corpus: the
start word "a" occurs as a first component, so the matching context is
selected, and generation from it succeeds. -/
theorem start_key_selection_witness :
    keyHead (start_key [(Key.tup ["a", "b"], [("c", 1)])] "a" 0) = some "a" ∧
    start_key [(Key.tup ["a", "b"], [("c", 1)])] "a" 0 ∈
      chainKeys [(Key.tup ["a", "b"], [("c", 1)])] :=
  ⟨(start_key_selection ["a", "b", "c"] 2 _ "a" 0 3 [0] (by decide) rfl).1
      ⟨Key.tup ["a", "b"], by decide, by decide⟩,
    (start_key_selection ["a", "b", "c"] 2 _ "a" 0 3 [0] (by decide) rfl).2.2.1⟩

/-! ## Tokenizer idempotence: character facts -/

theorem char_lower_toLower (c : Char) (h : c.isLower = true) : c.toLower = c := by
  simp [Char.isLower] at h
  obtain ⟨h1, h2⟩ := h
  have h1' : (97 : UInt32).toNat ≤ c.val.toNat := h1
  have h97 : (97 : UInt32).toNat = 97 := rfl
  simp [Char.toLower, Char.toNat]
  intro ha hb
  exact absurd hb (by omega)

theorem char_lower_not_ws (c : Char) (h : c.isLower = true) :
    c.isWhitespace = false := by
  cases hw : c.isWhitespace
  · rfl
  · exfalso
    simp [Char.isWhitespace] at hw
    rcases hw with ((hw | hw) | hw) | hw <;> (subst hw; exact absurd h (by decide))

theorem char_lower_not_apos (c : Char) (h : c.isLower = true) :
    aposChar c = false := by
  by_cases h39 : c = Char.ofNat 39
  · subst h39; exact absurd h (by decide)
  · by_cases h96 : c = Char.ofNat 96
    · subst h96; exact absurd h (by decide)
    · simp [aposChar, h39, h96]

theorem char_lower_kept (c : Char) (h : c.isLower = true) :
    isKeptChar c = true := by
  simp [isKeptChar, isWordChar, Char.isAlphanum, Char.isAlpha, h]

theorem char_lower_not_newline (c : Char) (h : c.isLower = true) : ¬ c = '\n' := by
  intro he
  subst he
  exact absurd h (by decide)

/-! ## Tokenizer idempotence: the normalisation pass is the identity on
already-clean characters -/

theorem normalizeLine_good (l : List Char)
    (h : ∀ c ∈ l, c.isLower = true ∨ c = '.' ∨ c = ' ') :
    normalizeLine l = l := by
  induction l with
  | nil => rfl
  | cons c cs ih =>
    have hc := h c (List.mem_cons_self _ _)
    have hcs := fun x hx => h x (List.mem_cons_of_mem _ hx)
    have h1 : c.toLower = c := by
      rcases hc with hc | hc | hc
      · exact char_lower_toLower c hc
      · subst hc; decide
      · subst hc; decide
    have h2 : aposChar c = false := by
      rcases hc with hc | hc | hc
      · exact char_lower_not_apos c hc
      · subst hc; decide
      · subst hc; decide
    have h3 : isKeptChar c = true := by
      rcases hc with hc | hc | hc
      · exact char_lower_kept c hc
      · subst hc; decide
      · subst hc; decide
    have ih' := ih hcs
    simp only [normalizeLine, List.map_cons, h1, List.filter_cons, h2,
      Bool.not_false, if_true, h3] at *
    rw [ih']

theorem splitLines_no_newline (l : List Char) (h : ∀ c ∈ l, ¬ c = '\n') :
    splitLines l = [l] := by
  induction l with
  | nil => rfl
  | cons c cs ih =>
    have hc : ¬ ((c == '\n') = true) := by
      simpa using h c (List.mem_cons_self _ _)
    have ih' := ih (fun x hx => h x (List.mem_cons_of_mem _ hx))
    simp only [splitLines]
    rw [if_neg hc, ih']

/-! ## Tokenizer idempotence: the scanner on already-clean text -/

theorem string_mk_toList (l : List Char) : (String.mk l).toList = l := rfl

theorem goodTok_mk_lower (buf : List Char)
    (hbuf : ∀ c ∈ buf, c.isLower = true) (hne : buf.isEmpty = false) :
    goodTok (String.mk buf) = true := by
  have hall : buf.all Char.isLower = true := List.all_eq_true.mpr hbuf
  simp [goodTok, string_mk_toList, hne, hall]

theorem scanTokens_all_lower (w : List Char) :
    ∀ buf, (∀ c ∈ w, c.isLower = true) →
      scanTokens false buf w =
        if (buf ++ w).isEmpty then [] else [String.mk (buf ++ w)] := by
  induction w with
  | nil =>
    intro buf hw
    simp [scanTokens]
  | cons c cs ih =>
    intro buf hw
    have hc : c.isLower = true := hw c (List.mem_cons_self _ _)
    have hcs := fun x hx => hw x (List.mem_cons_of_mem _ hx)
    rw [scanTokens, if_pos hc, if_neg (by simp), ih (buf ++ [c]) hcs,
      List.append_assoc]
    rfl

theorem scanTokens_lower_space (rest : List Char) (w : List Char) :
    ∀ buf, (∀ c ∈ w, c.isLower = true) →
      scanTokens false buf (w ++ ' ' :: rest) =
        (if (buf ++ w).isEmpty then [] else [String.mk (buf ++ w)]) ++
          scanTokens false [] rest := by
  induction w with
  | nil =>
    intro buf hw
    rw [List.nil_append, scanTokens, if_neg (by decide), if_neg (by decide),
      if_neg (by decide), List.append_nil]
  | cons c cs ih =>
    intro buf hw
    have hc : c.isLower = true := hw c (List.mem_cons_self _ _)
    have hcs := fun x hx => hw x (List.mem_cons_of_mem _ hx)
    rw [List.cons_append, scanTokens, if_pos hc, if_neg (by simp),
      ih (buf ++ [c]) hcs, List.append_assoc]
    rfl

theorem scanTokens_tokens_good (input : List Char) :
    ∀ (blocked : Bool) (buf : List Char), (∀ c ∈ buf, c.isLower = true) →
      ∀ s ∈ scanTokens blocked buf input, goodTok s = true := by
  induction input with
  | nil =>
    intro blocked buf hbuf s hs
    rw [scanTokens] at hs
    by_cases hb : buf.isEmpty
    · rw [if_pos hb] at hs
      cases hs
    · rw [if_neg hb] at hs
      rw [List.mem_singleton] at hs
      subst hs
      exact goodTok_mk_lower buf hbuf (Bool.eq_false_iff.mpr hb)
  | cons c cs ih =>
    intro blocked buf hbuf s hs
    rw [scanTokens] at hs
    by_cases h1 : c.isLower = true
    · rw [if_pos h1] at hs
      by_cases h2 : (buf.isEmpty && blocked) = true
      · rw [if_pos h2] at hs
        exact ih true [] (fun x hx => absurd hx (List.not_mem_nil x)) s hs
      · rw [if_neg h2] at hs
        refine ih false (buf ++ [c]) ?_ s hs
        intro x hx
        rcases List.mem_append.mp hx with hx | hx
        · exact hbuf x hx
        · rw [List.mem_singleton] at hx
          subst hx
          exact h1
    · rw [if_neg h1] at hs
      by_cases h3 : isWordChar c = true
      · rw [if_pos h3] at hs
        exact ih true [] (fun x hx => absurd hx (List.not_mem_nil x)) s hs
      · rw [if_neg h3] at hs
        by_cases h4 : (c == '.') = true
        · rw [if_pos h4] at hs
          rcases List.mem_append.mp hs with hs | hs
          · by_cases hb : buf.isEmpty
            · rw [if_pos hb] at hs
              cases hs
            · rw [if_neg hb] at hs
              rw [List.mem_singleton] at hs
              subst hs
              exact goodTok_mk_lower buf hbuf (Bool.eq_false_iff.mpr hb)
          · rcases List.mem_cons.mp hs with hs | hs
            · subst hs
              decide
            · exact ih false [] (fun x hx => absurd hx (List.not_mem_nil x)) s hs
        · rw [if_neg h4] at hs
          rcases List.mem_append.mp hs with hs | hs
          · by_cases hb : buf.isEmpty
            · rw [if_pos hb] at hs
              cases hs
            · rw [if_neg hb] at hs
              rw [List.mem_singleton] at hs
              subst hs
              exact goodTok_mk_lower buf hbuf (Bool.eq_false_iff.mpr hb)
          · exact ih false [] (fun x hx => absurd hx (List.not_mem_nil x)) s hs

theorem clean_txt_tokens_good (t : String) :
    ∀ s ∈ clean_txt t, goodTok s = true := by
  intro s hs
  unfold clean_txt at hs
  split at hs
  · cases hs
  · unfold cleanChars at hs
    rw [List.mem_flatten] at hs
    obtain ⟨l, hl, hsl⟩ := hs
    rw [List.mem_map] at hl
    obtain ⟨line, hline, rfl⟩ := hl
    split at hsl
    · cases hsl
    · exact scanTokens_tokens_good _ false []
        (fun x hx => absurd hx (List.not_mem_nil x)) s hsl

theorem goodTok_cases (s : String) (h : goodTok s = true) :
    s = "." ∨ (s.toList ≠ [] ∧ ∀ c ∈ s.toList, c.isLower = true) := by
  unfold goodTok at h
  rw [Bool.or_eq_true] at h
  rcases h with h | h
  · exact Or.inl (eq_of_beq h)
  · rw [Bool.and_eq_true] at h
    obtain ⟨h1, h2⟩ := h
    refine Or.inr ⟨?_, fun c hc => List.all_eq_true.mp h2 c hc⟩
    intro he
    simp [he] at h1
    exact h1 he

theorem joinChars_chars_good (ts : List String)
    (h : ∀ s ∈ ts, goodTok s = true) :
    ∀ c ∈ joinChars ts, c.isLower = true ∨ c = '.' ∨ c = ' ' := by
  induction ts with
  | nil =>
    intro c hc
    cases hc
  | cons t ts ih =>
    intro c hc
    have ht := h t (List.mem_cons_self _ _)
    have hts := fun x hx => h x (List.mem_cons_of_mem _ hx)
    have htc : ∀ c ∈ t.toList, c.isLower = true ∨ c = '.' ∨ c = ' ' := by
      intro c hc
      rcases goodTok_cases t ht with h' | ⟨_, h'⟩
      · subst h'
        rw [show ("." : String).toList = ['.'] from rfl, List.mem_singleton] at hc
        exact Or.inr (Or.inl hc)
      · exact Or.inl (h' c hc)
    cases ts with
    | nil => exact htc c hc
    | cons t' ts' =>
      simp only [joinChars] at hc
      rcases List.mem_append.mp hc with hc | hc
      · exact htc c hc
      · rcases List.mem_cons.mp hc with hc | hc
        · exact Or.inr (Or.inr hc)
        · exact ih hts c hc

theorem joinChars_cons_not_blank (t : String) (ts : List String)
    (h : ∀ s ∈ t :: ts, goodTok s = true) :
    (joinChars (t :: ts)).all Char.isWhitespace = false := by
  have ht := h t (List.mem_cons_self _ _)
  obtain ⟨c, hc_mem, hc_nws⟩ : ∃ c ∈ t.toList, c.isWhitespace = false := by
    rcases goodTok_cases t ht with h' | ⟨hne, h'⟩
    · subst h'
      exact ⟨'.', by decide, by decide⟩
    · cases hl : t.toList with
      | nil => exact absurd hl hne
      | cons c0 cs0 =>
        refine ⟨c0, List.mem_cons_self _ _, ?_⟩
        refine char_lower_not_ws c0 (h' c0 ?_)
        rw [hl]
        exact List.mem_cons_self _ _
  have hc_join : c ∈ joinChars (t :: ts) := by
    cases ts with
    | nil => exact hc_mem
    | cons t' ts' =>
      simp only [joinChars]
      exact List.mem_append.mpr (Or.inl hc_mem)
  cases hall : (joinChars (t :: ts)).all Char.isWhitespace
  · rfl
  · exfalso
    have hcontra := List.all_eq_true.mp hall c hc_join
    rw [hc_nws] at hcontra
    cases hcontra

theorem join_tokens_toList (ts : List String) :
    (join_tokens ts).toList = joinChars ts := by
  induction ts with
  | nil => rfl
  | cons t ts ih =>
    cases ts with
    | nil => rfl
    | cons t' ts' =>
      show (t ++ " " ++ join_tokens (t' :: ts')).data = _
      rw [String.data_append, String.data_append]
      have ih' : (join_tokens (t' :: ts')).data = joinChars (t' :: ts') := ih
      rw [ih', List.append_assoc]
      rfl

theorem scan_joinChars (ts : List String) (h : ∀ s ∈ ts, goodTok s = true) :
    scanTokens false [] (joinChars ts) = ts := by
  induction ts with
  | nil => rfl
  | cons t ts ih =>
    have ht := h t (List.mem_cons_self _ _)
    have hts := fun x hx => h x (List.mem_cons_of_mem _ hx)
    cases ts with
    | nil =>
      rcases goodTok_cases t ht with h' | ⟨hne, h'⟩
      · subst h'
        rfl
      · show scanTokens false [] t.toList = [t]
        rw [scanTokens_all_lower t.toList [] h', List.nil_append]
        rw [if_neg (fun hx => hne (List.isEmpty_iff.mp hx))]
        rfl
    | cons t' ts' =>
      show scanTokens false [] (t.toList ++ ' ' :: joinChars (t' :: ts')) =
        t :: t' :: ts'
      have hsp := scanTokens_lower_space (joinChars (t' :: ts')) [] []
        (fun c hc => absurd hc (List.not_mem_nil c))
      rw [List.nil_append, List.append_nil] at hsp
      rcases goodTok_cases t ht with h' | ⟨hne, h'⟩
      · subst h'
        show scanTokens false [] ('.' :: ' ' :: joinChars (t' :: ts')) = _
        rw [scanTokens, if_neg (by decide), if_neg (by decide), if_pos (by decide)]
        rw [hsp, ih hts]
        rfl
      · rw [scanTokens_lower_space (joinChars (t' :: ts')) t.toList [] h',
          List.nil_append]
        rw [if_neg (fun hx => hne (List.isEmpty_iff.mp hx))]
        rw [ih hts]
        rfl

theorem clean_join_of_good (ts : List String) (h : ∀ s ∈ ts, goodTok s = true) :
    clean_txt (join_tokens ts) = ts := by
  cases ts with
  | nil => rfl
  | cons t ts' =>
    have hchars := joinChars_chars_good (t :: ts') h
    have hnl : ∀ c ∈ joinChars (t :: ts'), ¬ c = '\n' := by
      intro c hc
      rcases hchars c hc with h' | h' | h'
      · exact char_lower_not_newline c h'
      · subst h'
        decide
      · subst h'
        decide
    have hblank := joinChars_cons_not_blank t ts' h
    unfold clean_txt
    rw [join_tokens_toList]
    rw [if_neg (by rw [hblank]; exact Bool.false_ne_true)]
    unfold cleanChars
    rw [splitLines_no_newline _ hnl]
    rw [List.map_cons, List.map_nil]
    rw [if_neg (by rw [hblank]; exact Bool.false_ne_true)]
    rw [normalizeLine_good _ hchars]
    simp only [List.flatten_cons, List.flatten_nil, List.append_nil]
    exact scan_joinChars (t :: ts') h

/-- C8: tokenization is idempotent on its own output: cleaning the
space-joined token list produced by `clean_txt` returns exactly the
same token list, for every input string. -/
theorem clean_txt_idempotent (t : String) :
    clean_txt (join_tokens (clean_txt t)) = clean_txt t :=
  clean_join_of_good (clean_txt t) (clean_txt_tokens_good t)
